import Mathlib

/-!
Verification of the version-tag classification core of `vscode-versionlens`
(file `src/unnamed/part_000`, functions `pluckSemverVersions`, `parseVersion`,
`isFixedVersion`, `isOlderVersion`, `sortTagsByRecentVersion`,
`pluckTagsAndReleases`, `reduceTagsByUniqueNames`, `removeAmbiguousTagNames`,
`removeExactVersions`, `removeTagsWithName`, `removeOlderVersions`,
`buildMapFromVersionList`, `deduceMaxSatisfyingFromSemverList`,
`buildTagsFromVersionMap`, `applyTagFilterRules`).

The source calls into the external npm `semver` library.  That library is
modelled here: version strings follow the spec's glossary grammar
`MAJOR.MINOR.PATCH[-PRERELEASE][+BUILD]`, ranges follow the spec's canonical
range grammar (a single comparator `^ ~ >= <= > < =` or a bare version, or
the empty string).  Library calls that throw on unparseable input
(`semver.ltr`, `semver.lt`, `semver.gt`, `new semver.Range`) are modelled as
`Option`-valued functions returning `none` for the exception; calls that
swallow bad input (`semver.prerelease`, `semver.satisfies`,
`semver.validRange`) are total.  JavaScript strings are modelled through
their `List Char` data; JS `Array.prototype` helpers are modelled on
`List`.
-/

/-! ### Character-level string utilities (JS string primitives) -/

/-- Split a character list at the first occurrence of `c`: returns the part
before it and, when `c` occurs, the part after it. -/
def splitAtChar (c : Char) : List Char → List Char × Option (List Char)
  | [] => ([], none)
  | x :: xs =>
    if x = c then ([], some xs)
    else ((x :: (splitAtChar c xs).1), (splitAtChar c xs).2)

/-- Split a character list into its `'.'`-separated groups (JS
`String.prototype.split('.')`): always at least one group. -/
def splitDots : List Char → List (List Char)
  | [] => [[]]
  | c :: cs =>
    if c = '.' then [] :: splitDots cs
    else
      match splitDots cs with
      | [] => [[c]]
      | g :: gs => (c :: g) :: gs

/-- Join groups with `'.'` (JS `Array.prototype.join('.')`). -/
def joinDots : List (List Char) → List Char
  | [] => []
  | [g] => g
  | g :: g' :: gs => g ++ '.' :: joinDots (g' :: gs)

/-- Does `pat` occur as a contiguous substring (JS
`String.prototype.includes`)? -/
def hasSubstring (pat : List Char) : List Char → Bool
  | [] => pat.isEmpty
  | x :: xs => pat.isPrefixOf (x :: xs) || hasSubstring pat xs

/-- Replace the first occurrence of `pat` in the list by `repl`
(JS `String.prototype.replace` with a plain-string pattern). -/
def replaceFirstChars : List Char → List Char → List Char → List Char
  | [], _, _ => []
  | x :: xs, pat, repl =>
    if pat.isPrefixOf (x :: xs) then repl ++ (x :: xs).drop pat.length
    else x :: replaceFirstChars xs pat repl

/-! ### The semantic-version data model -/

/-- A parsed semantic version.  Prerelease and build identifiers are kept as
the raw identifier strings. -/
structure SemVer where
  major : Nat
  minor : Nat
  patch : Nat
  pre : List String
  build : List String
deriving DecidableEq, Repr

def allDigits (l : List Char) : Bool := l.all (·.isDigit)

/-- A numeric identifier: nonempty digits without a leading zero. -/
def isNumericId (l : List Char) : Bool :=
  !l.isEmpty && allDigits l && (l.head? ≠ some '0' || l = ['0'])

def charsToNat (l : List Char) : Nat :=
  l.foldl (fun n c => 10 * n + (c.toNat - 48)) 0

/-- Characters allowed in prerelease/build identifiers: `[0-9A-Za-z-]`. -/
def isIdChar (c : Char) : Bool := c.isAlphanum || c = '-'

/-- A valid prerelease identifier: nonempty, identifier characters only,
and numeric identifiers may not have leading zeros. -/
def validPreId (l : List Char) : Bool :=
  !l.isEmpty && l.all isIdChar && (!allDigits l || isNumericId l)

/-- A valid build identifier: nonempty identifier characters (leading zeros
allowed). -/
def validBuildId (l : List Char) : Bool := !l.isEmpty && l.all isIdChar

/-- Parse the numeric `MAJOR.MINOR.PATCH` triple. -/
def parseMain (l : List Char) : Option (Nat × Nat × Nat) :=
  match splitDots l with
  | [a, b, c] =>
    if isNumericId a && isNumericId b && isNumericId c then
      some (charsToNat a, charsToNat b, charsToNat c)
    else none
  | _ => none

/-- Parse the optional prerelease part (the text after the first `'-'`). -/
def parsePreOpt : Option (List Char) → Option (List String)
  | none => some []
  | some pcs =>
    if (splitDots pcs).all validPreId then
      some ((splitDots pcs).map (fun g => String.mk g))
    else none

/-- Parse the optional build part (the text after the first `'+'`). -/
def parseBuildOpt : Option (List Char) → Option (List String)
  | none => some []
  | some bcs =>
    if (splitDots bcs).all validBuildId then
      some ((splitDots bcs).map (fun g => String.mk g))
    else none

/-- Modelled from the spec: the glossary grammar of a semantic version,
`MAJOR.MINOR.PATCH[-PRERELEASE][+BUILD]` (the concrete parser of the external
npm `semver` library is not part of this repository). -/
def parseSemVerChars (l : List Char) : Option SemVer :=
  match parseMain (splitAtChar '-' (splitAtChar '+' l).1).1,
        parsePreOpt (splitAtChar '-' (splitAtChar '+' l).1).2,
        parseBuildOpt (splitAtChar '+' l).2 with
  | some m, some p, some b => some ⟨m.1, m.2.1, m.2.2, p, b⟩
  | _, _, _ => none

def parseSemVer (s : String) : Option SemVer := parseSemVerChars s.data

/-! ### Semver precedence as a lexicographic key

Precedence compares the numeric triple, then the prerelease part: a release
(empty prerelease) is greater than any prerelease of the same triple;
prerelease identifier lists compare lexicographically with a shorter prefix
smaller; numeric identifiers compare numerically and are below alphanumeric
ones, which compare lexically.  Build metadata is ignored. -/

/-- Key of one prerelease identifier: numeric identifiers below
alphanumeric ones (lexical comparison is over the character list, as Lean's
`String` order does not reduce in the kernel). -/
def idKey (s : String) : Nat ⊕ₗ List Char :=
  if allDigits s.data then toLex (Sum.inl (charsToNat s.data))
  else toLex (Sum.inr s.data)

/-- Key of a prerelease identifier list: the empty list (a release) is
greatest. -/
def preKey (p : List String) : WithTop (List (Nat ⊕ₗ List Char)) :=
  match p with
  | [] => ⊤
  | _ => (p.map idKey : List (Nat ⊕ₗ List Char))

/-- The full precedence key of a parsed version. -/
def svKey (v : SemVer) : Nat ×ₗ (Nat ×ₗ (Nat ×ₗ WithTop (List (Nat ⊕ₗ List Char)))) :=
  toLex (v.major, toLex (v.minor, toLex (v.patch, preKey v.pre)))

def svLtB (a b : SemVer) : Bool := decide (svKey a < svKey b)

def svGtB (a b : SemVer) : Bool := decide (svKey b < svKey a)

def svGeB (a b : SemVer) : Bool := decide (svKey b ≤ svKey a)

def svLeB (a b : SemVer) : Bool := decide (svKey a ≤ svKey b)

def svEqB (a b : SemVer) : Bool := decide (svKey a = svKey b)

/-! ### Ranges (the spec's canonical range grammar) -/

inductive RangeOp
  | eq
  | lt
  | le
  | gt
  | ge
deriving DecidableEq, Repr

/-- A desugared range comparator; `any` is the comparator of the empty
range. -/
inductive Comparator
  | any
  | cmp (op : RangeOp) (sv : SemVer)
deriving DecidableEq, Repr

/-- Upper bound of a caret range: next major, or next minor when the major
is 0, or next patch when major and minor are 0. -/
def caretUpper (v : SemVer) : SemVer :=
  if v.major > 0 then ⟨v.major + 1, 0, 0, [], []⟩
  else if v.minor > 0 then ⟨0, v.minor + 1, 0, [], []⟩
  else ⟨0, 0, v.patch + 1, [], []⟩

/-- Upper bound of a tilde range: next minor. -/
def tildeUpper (v : SemVer) : SemVer := ⟨v.major, v.minor + 1, 0, [], []⟩

/-- Modelled from the spec: the canonical range grammar of §6 — the empty
string, or one of the comparator operators `^ ~ >= <= > < =` followed by a
version, or a bare version (the range parser of the external npm `semver`
library is not part of this repository).  A range desugars to a list of
comparators. -/
def parseRangeChars (l : List Char) : Option (List Comparator) :=
  match l with
  | [] => some [Comparator.any]
  | c :: rest =>
    if c = '^' then
      (parseSemVerChars rest).map (fun v => [.cmp .ge v, .cmp .lt (caretUpper v)])
    else if c = '~' then
      (parseSemVerChars rest).map (fun v => [.cmp .ge v, .cmp .lt (tildeUpper v)])
    else if c = '>' then
      match rest with
      | '=' :: r2 => (parseSemVerChars r2).map (fun v => [.cmp .ge v])
      | _ => (parseSemVerChars rest).map (fun v => [.cmp .gt v])
    else if c = '<' then
      match rest with
      | '=' :: r2 => (parseSemVerChars r2).map (fun v => [.cmp .le v])
      | _ => (parseSemVerChars rest).map (fun v => [.cmp .lt v])
    else if c = '=' then
      (parseSemVerChars rest).map (fun v => [.cmp .eq v])
    else
      (parseSemVerChars l).map (fun v => [.cmp .eq v])

def parseRange (s : String) : Option (List Comparator) := parseRangeChars s.data

/-- The `operator` field of a comparator (as in `semver.Range` objects):
empty for `=` and for the any-comparator. -/
def compOperator : Comparator → String
  | .any => ""
  | .cmp .eq _ => ""
  | .cmp .lt _ => "<"
  | .cmp .le _ => "<="
  | .cmp .gt _ => ">"
  | .cmp .ge _ => ">="

/-- Does version `v` pass one comparator (ignoring the prerelease rule)? -/
def compTest (v : SemVer) : Comparator → Bool
  | .any => true
  | .cmp .eq w => svEqB v w
  | .cmp .lt w => svLtB v w
  | .cmp .le w => svLeB v w
  | .cmp .gt w => svGtB v w
  | .cmp .ge w => svGeB v w

/-- The npm prerelease rule: a prerelease version satisfies a range only if
some comparator carries a prerelease of the same numeric triple. -/
def preOk (v : SemVer) (cs : List Comparator) : Bool :=
  v.pre.isEmpty ||
    cs.any (fun c =>
      match c with
      | .any => false
      | .cmp _ w =>
        !w.pre.isEmpty && w.major = v.major && w.minor = v.minor && w.patch = v.patch)

/-- Does `v` satisfy the comparator set? -/
def satisfiesSet (v : SemVer) (cs : List Comparator) : Bool :=
  cs.all (compTest v) && preOk v cs

/-- The comparator with `any` desugared to `>=0.0.0`, as npm's `outside`
does. -/
def desugarAny : Comparator → RangeOp × SemVer
  | .any => (.ge, ⟨0, 0, 0, [], []⟩)
  | .cmp op w => (op, w)

/-- npm's `outside(version, range, hilo)` for `hilo = '<'` (the body of
`semver.ltr`): true when `v` is lower than every version in the range.  The
fold mirrors the library's high/low scan, including its `else if` (a
comparator that updates `high` is not considered for `low`). -/
def outsideLower (v : SemVer) (cs : List Comparator) : Bool :=
  if satisfiesSet v cs then false
  else
    match cs.map desugarAny with
    | [] => true
    | c0 :: rest =>
      let hl := rest.foldl
        (fun (hl : (RangeOp × SemVer) × (RangeOp × SemVer)) c =>
          if svLtB c.2 hl.1.2 then (c, hl.2)
          else if svGtB c.2 hl.2.2 then (hl.1, c)
          else hl)
        (c0, c0)
      if hl.1.1 = .lt || hl.1.1 = .le then false
      else if (hl.2.1 = .eq || hl.2.1 = .lt) && svGeB v hl.2.2 then false
      else if hl.2.1 = .le && svGtB v hl.2.2 then false
      else true

/-! ### The modelled npm `semver` library entry points -/

/-- `semver.validRange` as a Boolean (the library returns the normalized
range or `null`; the source only uses its truthiness). -/
def semverValidRange (s : String) : Bool := (parseRange s).isSome

/-- `semver.prerelease`: the prerelease identifiers of a valid prerelease
version, otherwise `null`. -/
def semverPrerelease (s : String) : Option (List String) :=
  (parseSemVer s).bind (fun sv => if sv.pre.isEmpty then none else some sv.pre)

/-- `semver.ltr(version, range)`: `none` models the `TypeError` the library
throws when the version or the range does not parse. -/
def semverLtr (v r : String) : Option Bool :=
  match parseSemVer v, parseRange r with
  | some sv, some cs => some (outsideLower sv cs)
  | _, _ => none

/-- `semver.lt` by precedence; `none` models the throw on unparseable
input. -/
def semverLt (a b : String) : Option Bool :=
  match parseSemVer a, parseSemVer b with
  | some x, some y => some (svLtB x y)
  | _, _ => none

/-- `semver.gt` by precedence; `none` models the throw on unparseable
input. -/
def semverGt (a b : String) : Option Bool :=
  match parseSemVer a, parseSemVer b with
  | some x, some y => some (svGtB x y)
  | _, _ => none

/-- `semver.satisfies(version, range)`: never throws; `false` on a `null`
or unparseable version or an invalid range. -/
def semverSatisfies (v : Option String) (r : String) : Bool :=
  match parseRange r with
  | none => false
  | some cs =>
    match v with
    | none => false
    | some s =>
      match parseSemVer s with
      | none => false
      | some sv => satisfiesSet sv cs

/-- One step of the maximum scan: keep the current best unless the new
version is strictly greater. -/
def maxPick (best v : String) : String :=
  match parseSemVer v, parseSemVer best with
  | some a, some b => if svGtB a b then v else best
  | _, _ => best

/-- The versions of the list that parse and satisfy the comparator set. -/
def satisfyingOf (cs : List Comparator) (versions : List String) : List String :=
  versions.filter (fun s =>
    match parseSemVer s with
    | some sv => satisfiesSet sv cs
    | none => false)

/-- Modelled from the spec: `semver.maxSatisfying` — the highest version in
the list satisfying the range; per §4.3 the computation fails (`.error`,
modelling a throw) on a malformed range.  (The library itself is not part of
this repository; §4.3 specifies this failure mode.) -/
def semverMaxSatisfying (versions : List String) (range : String) :
    Except Unit (Option String) :=
  match parseRange range with
  | none => .error ()
  | some cs =>
    match satisfyingOf cs versions with
    | [] => .ok none
    | x :: xs => .ok (some (xs.foldl maxPick x))

/-! ### The repository's data model -/

/-- `TaggedVersion`: a named (prerelease) entry. -/
structure TaggedVersion where
  name : String
  version : String
deriving DecidableEq, Repr

/-- `VersionInfo`: the result of `parseVersion`. -/
structure VersionInfo where
  version : String
  isPrerelease : Bool
  prereleaseGroup : String
deriving DecidableEq, Repr

/-- `VersionMap`: releases, named prerelease tags and the maximum satisfying
version (`pluckTagsAndReleases` builds the first two fields;
`buildMapFromVersionList` then assigns `maxSatisfyingVersion`; `none` models
JS `null`). -/
structure VersionMap where
  releases : List String
  taggedVersions : List TaggedVersion
  maxSatisfyingVersion : Option String := none
deriving DecidableEq, Repr

/-- An output tag of `buildTagsFromVersionMap`.  The JS objects carry only
some of these keys per entry; absent flags are modelled as `false`.
`version` is `Option String` because the satisfies entry carries
`maxSatisfyingVersion`, which may be `null`. -/
structure ResolvedTag where
  name : String
  version : Option String
  isOlderThanRequested : Bool := false
  isNewerThanLatest : Bool := false
  isLatestVersion : Bool := false
  satisfiesLatest : Bool := false
  isInvalid : Bool := false
  versionMatchNotFound : Bool := false
  isFixedVersion : Bool := false
  isPrimaryTag : Bool := false
deriving DecidableEq, Repr

/-! ### The source functions -/

/-- `removeExactVersions`: drop tags whose version equals `version` exactly
(`tag.version !== version`; the call in `applyTagFilterRules` may pass the
`null` `satisfiesVersion`, hence the `Option`). -/
def removeExactVersions (l : List TaggedVersion) (version : Option String) :
    List TaggedVersion :=
  l.filter (fun tag => !(version == some tag.version))

/-- `removeTagsWithName`: drop tags with exactly this name. -/
def removeTagsWithName (l : List TaggedVersion) (name : String) :
    List TaggedVersion :=
  l.filter (fun tag => !(tag.name == name))

/-- Modelled from the spec: `sortDescending` of the missing `utils.js` — a
descending lexical comparison (§4.2: ties fall back to "a descending lexical
comparison of `a.name` vs `b.name`"). -/
def sortDescending (a b : String) : Int :=
  if b.data < a.data then -1 else if a.data < b.data then 1 else 0

/-- JS `String.prototype.toLowerCase` (ASCII; Lean's `String.toLower` is
iterator-based and does not reduce in the kernel). -/
def jsToLower (s : String) : String := String.mk (s.data.map Char.toLower)

/-- Modelled from the spec: `formatTagNameRegex` of the missing `utils.js` —
the "tag-name" pattern capturing a leading run of alphabetic characters
(§4.1); `none` models a failed `exec`. -/
def formatTagNameMatch (s : String) : Option String :=
  let run := s.data.takeWhile (fun c => c.isAlpha)
  if run.isEmpty then none else some (String.mk run)

/-- The stripped prerelease text used by `isOlderVersion`:
`version.replace('-' + components.join('.'), '')`. -/
def strippedPrerelease (version : String) (comps : List String) : String :=
  String.mk (replaceFirstChars version.data
    ('-' :: joinDots (comps.map (fun s => s.data))) [])

/-- `isOlderVersion(version, requestedVersion)`: is `version` older than the
constraint, with the prerelease correction; `none` models the `TypeError`
propagating out of `semver.ltr`. -/
def isOlderVersion (version requestedVersion : String) : Option Bool :=
  match semverPrerelease requestedVersion with
  | some _ => semverLtr version requestedVersion
  | none =>
    match semverPrerelease version with
    | some comps =>
      let testVersion := strippedPrerelease version comps
      match semverLtr testVersion requestedVersion with
      | none => none
      | some b => some (b || hasSubstring testVersion.data requestedVersion.data)
    | none => semverLtr version requestedVersion

/-- `removeOlderVersions`: drop tags that are `isOlderVersion` than the
range; `none` models a throw from `isOlderVersion` inside the filter. -/
def removeOlderVersions : List TaggedVersion → String → Option (List TaggedVersion)
  | [], _ => some []
  | t :: ts, versionRange =>
    match isOlderVersion t.version versionRange with
    | none => none
    | some b =>
      (removeOlderVersions ts versionRange).map
        (fun rest => if b then rest else t :: rest)

/-- `sortTagsByRecentVersion`: the descending comparator; `none` models the
throw of `semver.lt`/`semver.gt` on an unparseable version. -/
def sortTagsByRecentVersion (tagA tagB : TaggedVersion) : Option Int :=
  match parseSemVer tagA.version, parseSemVer tagB.version with
  | some a, some b =>
    some (if svLtB a b then 1 else if svGtB a b then -1
          else sortDescending tagA.name tagB.name)
  | _, _ => none

/-- `pluckSemverVersions`: keep entries that are a valid version or range. -/
def pluckSemverVersions (versions : List String) : List String :=
  versions.filter semverValidRange

/-- `parseVersion`: classify one version string. -/
def parseVersion (version : String) : VersionInfo :=
  match semverPrerelease version with
  | none => ⟨version, false, ""⟩
  | some comps =>
    let group :=
      match formatTagNameMatch (comps.headD "") with
      | none => ""
      | some m => jsToLower m
    ⟨version, true, group⟩

/-- `isFixedVersion`: the first comparator of the range has the empty
operator; `none` models the throw of `new semver.Range` on an invalid
range. -/
def isFixedVersion (versionToCheck : String) : Option Bool :=
  (parseRange versionToCheck).map (fun cs =>
    match cs.head? with
    | some c => compOperator c == ""
    | none => false)

/-- `pluckTagsAndReleases`: partition parsed versions into releases and
named prerelease tags, preserving input order. -/
def pluckTagsAndReleases (versions : List String) : VersionMap :=
  let parsedVersions := versions.map parseVersion
  { releases := (parsedVersions.filter (fun i => !i.isPrerelease)).map (·.version),
    taggedVersions :=
      (parsedVersions.filter (·.isPrerelease)).map
        (fun i => ⟨i.prereleaseGroup, i.version⟩) }

/-- `reduceTagsByUniqueNames`: keep the first occurrence of each name. -/
def reduceTagsByUniqueNames (l : List TaggedVersion) : List TaggedVersion :=
  l.foldl
    (fun unique current =>
      if unique.any (fun x => x.name == current.name) then unique
      else unique ++ [current])
    []

/-- `removeAmbiguousTagNames`: re-match each name against the tag-name
pattern; keep unmatched names unchanged, replace matched names of length > 1
by the lowercased match, drop tags whose match has length ≤ 1. -/
def removeAmbiguousTagNames (l : List TaggedVersion) : List TaggedVersion :=
  l.foldl
    (fun results current =>
      match formatTagNameMatch current.name with
      | none => results ++ [current]
      | some m =>
        if m.length > 1 then results ++ [⟨jsToLower m, current.version⟩]
        else results)
    []

/-- `deduceMaxSatisfyingFromSemverList`: the failure of the max-satisfying
computation is caught and the original `requestedVersion` is returned. -/
def deduceMaxSatisfyingFromSemverList (semverList : List String)
    (requestedVersion : String) : Option String :=
  match semverMaxSatisfying semverList requestedVersion with
  | .error _ => some requestedVersion
  | .ok v => v

/-- `buildMapFromVersionList`. -/
def buildMapFromVersionList (versions : List String) (requestedVersion : String) :
    VersionMap :=
  let semverList := pluckSemverVersions versions
  let versionMap := pluckTagsAndReleases semverList
  { versionMap with
    maxSatisfyingVersion :=
      deduceMaxSatisfyingFromSemverList semverList requestedVersion }

/-! ### The tag filter pipeline -/

/-- The sort key realising `sortTagsByRecentVersion` as a total order:
descending precedence, ties by descending name (the primal order is dualized
so that the JS comparator's "a before b" is `tagKey a ≤ tagKey b`); a
version that does not parse is placed last (in the model it is only reached
when the JS sort would have thrown). -/
def tagKey (t : TaggedVersion) :
    (WithBot (Nat ×ₗ (Nat ×ₗ (Nat ×ₗ WithTop (List (Nat ⊕ₗ List Char))))))ᵒᵈ ×ₗ (List Char)ᵒᵈ :=
  toLex
    (OrderDual.toDual
      (match parseSemVer t.version with
       | some sv => (svKey sv : WithBot _)
       | none => ⊥),
     OrderDual.toDual t.name.data)

/-- `filterVersions.sort(sortTagsByRecentVersion)`: JS `Array.prototype.sort`
with that comparator.  A list of length ≤ 1 never invokes the comparator; on
a longer list every element is compared at least once, so an unparseable
version makes the comparator throw (`none`); otherwise the comparator is the
total order `tagKey`, and the (stable) sort is modelled by insertion sort. -/
def jsSortTags (l : List TaggedVersion) : Option (List TaggedVersion) :=
  if l.length ≤ 1 then some l
  else if l.all (fun t => (parseSemVer t.version).isSome) then
    some (l.insertionSort (fun a b => tagKey a ≤ tagKey b))
  else none

/-- Stages 1–4 of `applyTagFilterRules` (the older-than-requested filter,
the two exact-version filters, and the older-than-latest filter). -/
def applyStages14 (taggedVersions : List TaggedVersion)
    (requestedVersion : String) (satisfiesVersion : Option String)
    (latestVersion : String) (versionMatchNotFound : Bool) :
    Option (List TaggedVersion) := do
  let fv := taggedVersions
  let fv ←
    if semverValidRange requestedVersion then
      removeOlderVersions fv requestedVersion
    else pure fv
  let fv := removeExactVersions fv satisfiesVersion
  let fv := removeExactVersions fv (some latestVersion)
  let fv ←
    if versionMatchNotFound then removeOlderVersions fv latestVersion
    else pure fv
  pure fv

/-- `applyTagFilterRules`: the ordered filter/dedupe/sort pipeline over a
private copy of `taggedVersions`; `none` models a thrown `TypeError`. -/
def applyTagFilterRules (taggedVersions : List TaggedVersion)
    (requestedVersion : String) (satisfiesVersion : Option String)
    (latestVersion : String) (versionMatchNotFound : Bool) :
    Option (List TaggedVersion) := do
  let fv ← applyStages14 taggedVersions requestedVersion satisfiesVersion
    latestVersion versionMatchNotFound
  let fv := removeAmbiguousTagNames fv
  let fv := reduceTagsByUniqueNames fv
  let fv := removeTagsWithName fv "latest"
  jsSortTags fv

/-- `requestedVersion.replace(/[\x7b^~]/, '')` minus the brace: remove the
first `'^'` or `'~'` anywhere in the string. -/
def removeFirstCaretTilde : List Char → List Char
  | [] => []
  | c :: cs => if c = '^' || c = '~' then cs else c :: removeFirstCaretTilde cs

def replaceFirstCaretTilde (s : String) : String :=
  String.mk (removeFirstCaretTilde s.data)

/-- `versionMatchNotFound = !versionMap.maxSatisfyingVersion` (JS
truthiness: `null` and the empty string are falsy). -/
def buildVersionMatchNotFound (versionMap : VersionMap) : Bool :=
  match versionMap.maxSatisfyingVersion with
  | none => true
  | some s => s == ""

/-- `versionMap.releases[0] || versionMap.taggedVersions[0].version`; `none`
models the `TypeError` when both are absent. -/
def buildLatestVersionOpt (versionMap : VersionMap) : Option String :=
  match versionMap.releases.head? with
  | some s =>
    if s == "" then (versionMap.taggedVersions.head?).map (·.version)
    else some s
  | none => (versionMap.taggedVersions.head?).map (·.version)

/-- `latestEntry.isOlderThanRequested`: the short-circuit `&&` chain guards
the `isOlderVersion` call (which may throw, hence `Option`). -/
def buildOlderOpt (versionMap : VersionMap) (requestedVersion latestVersion : String) :
    Option Bool :=
  if buildVersionMatchNotFound versionMap then some false
  else if !semverValidRange requestedVersion then some false
  else isOlderVersion latestVersion requestedVersion

/-- `isFixed = isRequestedVersionValid && isFixedVersion(requestedVersion)`:
the guard keeps `new semver.Range` from throwing. -/
def buildIsFixedOpt (requestedVersion : String) : Option Bool :=
  if semverValidRange requestedVersion then isFixedVersion requestedVersion
  else some false

/-- `satisfiesLatest = semver.satisfies(maxSatisfyingVersion, latest)`. -/
def buildSatisfiesLatest (versionMap : VersionMap) (latestVersion : String) : Bool :=
  semverSatisfies versionMap.maxSatisfyingVersion latestVersion

/-- `isLatestVersion = satisfiesLatest && requestedVersion.replace(...) ===
latestEntry.version`. -/
def buildIsLatest (versionMap : VersionMap) (requestedVersion latestVersion : String) :
    Bool :=
  buildSatisfiesLatest versionMap latestVersion &&
    replaceFirstCaretTilde requestedVersion == latestVersion

/-- `isNewerThanLatest: !satisfiesLatest && maxSatisfyingVersion &&
semver.gt(maxSatisfyingVersion, latest)`: truthiness guards the `gt` call;
the JS value `null` (when `maxSatisfyingVersion` is null) is modelled as
`false`. -/
def buildNewerOpt (versionMap : VersionMap) (latestVersion : String) : Option Bool :=
  if !buildSatisfiesLatest versionMap latestVersion &&
      !buildVersionMatchNotFound versionMap then
    semverGt ((versionMap.maxSatisfyingVersion).getD "") latestVersion
  else some false

/-- `buildTagsFromVersionMap`: the satisfies entry, the optional latest
entry, then the filtered tags; `none` models a thrown `TypeError` (reading
`taggedVersions[0].version` of an empty map, or `semver.ltr`/`semver.gt` on
unparseable data). -/
def buildTagsFromVersionMap (versionMap : VersionMap)
    (requestedVersion : String) : Option (List ResolvedTag) :=
  match buildLatestVersionOpt versionMap with
  | none => none
  | some latestVersion =>
    match buildOlderOpt versionMap requestedVersion latestVersion with
    | none => none
    | some isOlder =>
      match buildIsFixedOpt requestedVersion with
      | none => none
      | some isFixed =>
        match buildNewerOpt versionMap latestVersion with
        | none => none
        | some isNewer =>
          match applyTagFilterRules versionMap.taggedVersions requestedVersion
              versionMap.maxSatisfyingVersion latestVersion
              (buildVersionMatchNotFound versionMap) with
          | none => none
          | some tags =>
            some ({ name := "satisfies",
                    version := versionMap.maxSatisfyingVersion,
                    isNewerThanLatest := isNewer,
                    isLatestVersion :=
                      buildIsLatest versionMap requestedVersion latestVersion,
                    satisfiesLatest :=
                      buildSatisfiesLatest versionMap latestVersion,
                    isInvalid := !semverValidRange requestedVersion,
                    versionMatchNotFound := buildVersionMatchNotFound versionMap,
                    isFixedVersion := isFixed,
                    isPrimaryTag := true } ::
              (if buildIsLatest versionMap requestedVersion latestVersion then []
               else [{ name := "latest", version := some latestVersion,
                       isOlderThanRequested := isOlder }]) ++
                tags.map (fun t => { name := t.name, version := some t.version }))

/-! ### A heap model of `applyTagFilterRules` for the aliasing claim

JS arrays are mutable objects.  To state that `applyTagFilterRules` never
mutates its input array, the arrays live in an explicit heap (a list of
array contents addressed by index).  `slice()` and each `filter`/`reduce`
stage allocate fresh arrays; the final `sort(...)` mutates — in place — the
array produced by the last stage.  The `Option Nat` result is the address
of the returned array, `none` modelling a thrown `TypeError` (on a throw the
partially sorted private array is simply left unwritten, which the claim
cannot observe). -/

abbrev Heap := List (List TaggedVersion)

/-- Allocate a fresh array; returns the new heap and the new address. -/
def allocArr (h : Heap) (l : List TaggedVersion) : Heap × Nat :=
  (List.append h [l], List.length h)

/-- Read the array at an address. -/
def readArr (h : Heap) (i : Nat) : List TaggedVersion := h[i]?.getD []

/-- Overwrite the array at an address (in-place mutation). -/
def writeArr (h : Heap) (i : Nat) (l : List TaggedVersion) : Heap := List.set h i l

/-- A filter stage that can throw: read the current array, apply the pure
stage function, and on success allocate the resulting fresh array. -/
def stageOpt (p : Heap × Nat) (f : List TaggedVersion → Option (List TaggedVersion)) :
    Option (Heap × Nat) :=
  match f (readArr p.1 p.2) with
  | none => none
  | some l => some (allocArr p.1 l)

/-- A total filter stage: read the current array, apply the pure stage
function, allocate the resulting fresh array. -/
def stagePure (p : Heap × Nat) (f : List TaggedVersion → List TaggedVersion) :
    Heap × Nat :=
  allocArr p.1 (f (readArr p.1 p.2))

/-- `let filterVersions = taggedVersions.slice()`. -/
def heapSlice (h0 : Heap) (inputIdx : Nat) : Heap × Nat :=
  allocArr h0 (readArr h0 inputIdx)

/-- Stage 1: `removeOlderVersions.call(filterVersions, requestedVersion)`,
guarded by `semver.validRange(requestedVersion)`. -/
def heapStage1 (p : Heap × Nat) (requestedVersion : String) :
    Option (Heap × Nat) :=
  if semverValidRange requestedVersion then
    stageOpt p (fun l => removeOlderVersions l requestedVersion)
  else some p

/-- Stages 2 and 3: the two `removeExactVersions` calls. -/
def heapStages23 (p : Heap × Nat) (satisfiesVersion : Option String)
    (latestVersion : String) : Heap × Nat :=
  stagePure (stagePure p (fun l => removeExactVersions l satisfiesVersion))
    (fun l => removeExactVersions l (some latestVersion))

/-- Stage 4: `removeOlderVersions.call(filterVersions, latestVersion)`,
guarded by `versionMatchNotFound`. -/
def heapStage4 (p : Heap × Nat) (latestVersion : String)
    (versionMatchNotFound : Bool) : Option (Heap × Nat) :=
  if versionMatchNotFound then
    stageOpt p (fun l => removeOlderVersions l latestVersion)
  else some p

/-- Stages 5–7: `removeAmbiguousTagNames`, `reduceTagsByUniqueNames`,
`removeTagsWithName 'latest'`. -/
def heapStages567 (p : Heap × Nat) : Heap × Nat :=
  stagePure
    (stagePure (stagePure p removeAmbiguousTagNames) reduceTagsByUniqueNames)
    (fun l => removeTagsWithName l "latest")

/-- `applyTagFilterRules` over the heap: `inputIdx` is the address of the
caller's `taggedVersions` array.  The stages run in source order; the final
`sort(...)` mutates — in place — the array produced by stage 7. -/
def applyTagFilterRulesHeap (h0 : Heap) (inputIdx : Nat)
    (requestedVersion : String) (satisfiesVersion : Option String)
    (latestVersion : String) (versionMatchNotFound : Bool) :
    Option Nat × Heap :=
  match heapStage1 (heapSlice h0 inputIdx) requestedVersion with
  | none => (none, (heapSlice h0 inputIdx).1)
  | some p2 =>
    match heapStage4 (heapStages23 p2 satisfiesVersion latestVersion)
        latestVersion versionMatchNotFound with
    | none => (none, (heapStages23 p2 satisfiesVersion latestVersion).1)
    | some p5 =>
      match jsSortTags (readArr (heapStages567 p5).1 (heapStages567 p5).2) with
      | none => (none, (heapStages567 p5).1)
      | some sorted =>
        (some (heapStages567 p5).2,
          writeArr (heapStages567 p5).1 (heapStages567 p5).2 sorted)

/-! ### General lemmas -/

theorem semverMaxSatisfying_eq_of_parse (l : List String) (r : String)
    (cs : List Comparator) (h : parseRange r = some cs) :
    semverMaxSatisfying l r =
      match satisfyingOf cs l with
      | [] => .ok none
      | x :: xs => .ok (some (xs.foldl maxPick x)) := by
  unfold semverMaxSatisfying
  rw [h]

theorem semverMaxSatisfying_eq_of_invalid (l : List String) (r : String)
    (h : parseRange r = none) : semverMaxSatisfying l r = .error () := by
  unfold semverMaxSatisfying
  rw [h]

theorem maxPick_cases (b v : String) : maxPick b v = b ∨ maxPick b v = v := by
  unfold maxPick
  rcases parseSemVer v with _ | a
  · left; rfl
  · rcases parseSemVer b with _ | c
    · left; rfl
    · by_cases h : svGtB a c = true
      · right; simp [h]
      · left; simp [h]

theorem foldl_maxPick_mem :
    ∀ (xs : List String) (b : String),
      xs.foldl maxPick b = b ∨ xs.foldl maxPick b ∈ xs := by
  intro xs
  induction xs with
  | nil => intro b; left; rfl
  | cons x xs ih =>
    intro b
    rcases ih (maxPick b x) with h | h
    · rcases maxPick_cases b x with h' | h'
      · left; rw [List.foldl_cons, h, h']
      · right; rw [List.foldl_cons, h, h']; exact List.mem_cons_self x xs
    · right; exact List.mem_cons_of_mem x h

/-- C10: `deduceMaxSatisfyingFromSemverList` returns `null`, an element of
its list, or the requested version itself; hence `maxSatisfyingVersion` in
`buildMapFromVersionList` is `null`, one of the versions surviving
`pluckSemverVersions`, or the original requested constraint. -/
theorem deduceMaxSatisfying_null_mem_or_requested
    (semverList : List String) (requestedVersion : String)
    (rawVersions : List String) :
    (deduceMaxSatisfyingFromSemverList semverList requestedVersion = none ∨
      (∃ v ∈ semverList,
        deduceMaxSatisfyingFromSemverList semverList requestedVersion = some v) ∨
      deduceMaxSatisfyingFromSemverList semverList requestedVersion =
        some requestedVersion) ∧
    ((buildMapFromVersionList rawVersions requestedVersion).maxSatisfyingVersion = none ∨
      (∃ v ∈ pluckSemverVersions rawVersions,
        (buildMapFromVersionList rawVersions requestedVersion).maxSatisfyingVersion =
          some v) ∨
      (buildMapFromVersionList rawVersions requestedVersion).maxSatisfyingVersion =
        some requestedVersion) := by
  have main : ∀ (l : List String),
      deduceMaxSatisfyingFromSemverList l requestedVersion = none ∨
        (∃ v ∈ l, deduceMaxSatisfyingFromSemverList l requestedVersion = some v) ∨
        deduceMaxSatisfyingFromSemverList l requestedVersion = some requestedVersion := by
    intro l
    cases hr : parseRange requestedVersion with
    | none =>
      right; right
      unfold deduceMaxSatisfyingFromSemverList
      rw [semverMaxSatisfying_eq_of_invalid l requestedVersion hr]
    | some cs =>
      unfold deduceMaxSatisfyingFromSemverList
      rw [semverMaxSatisfying_eq_of_parse l requestedVersion cs hr]
      cases hf : satisfyingOf cs l with
      | nil => left; rfl
      | cons x xs =>
        right; left
        refine ⟨xs.foldl maxPick x, ?_, rfl⟩
        have hmem : xs.foldl maxPick x ∈ x :: xs := by
          rcases foldl_maxPick_mem xs x with h | h
          · rw [h]; exact List.mem_cons_self x xs
          · exact List.mem_cons_of_mem x h
        rw [← hf] at hmem
        exact List.mem_of_mem_filter hmem
  refine ⟨main semverList, ?_⟩
  have : (buildMapFromVersionList rawVersions requestedVersion).maxSatisfyingVersion =
      deduceMaxSatisfyingFromSemverList (pluckSemverVersions rawVersions)
        requestedVersion := rfl
  rw [this]
  exact main (pluckSemverVersions rawVersions)

/-- C8: the max-satisfying computation's failure (which, per §4.3, a
malformed range provokes) is caught, and `deduceMaxSatisfyingFromSemverList`
returns the original `requestedVersion` unchanged; being a total function of
the model, it raises nothing itself. -/
theorem deduceMaxSatisfying_catches_failure
    (semverList : List String) (requestedVersion : String) :
    (semverValidRange requestedVersion = false →
      deduceMaxSatisfyingFromSemverList semverList requestedVersion =
        some requestedVersion) ∧
    (∀ e, semverMaxSatisfying semverList requestedVersion = .error e →
      deduceMaxSatisfyingFromSemverList semverList requestedVersion =
        some requestedVersion) := by
  constructor
  · intro h
    have hr : parseRange requestedVersion = none := by
      unfold semverValidRange at h
      cases hp : parseRange requestedVersion with
      | none => rfl
      | some cs => rw [hp] at h; simp at h
    unfold deduceMaxSatisfyingFromSemverList
    rw [semverMaxSatisfying_eq_of_invalid semverList requestedVersion hr]
  · intro e h
    unfold deduceMaxSatisfyingFromSemverList
    rw [h]

theorem deduceMaxSatisfying_catches_failure_witness :
    semverValidRange "garbage" = false ∧
      deduceMaxSatisfyingFromSemverList ["1.0.0"] "garbage" = some "garbage" :=
  ⟨by decide, (deduceMaxSatisfying_catches_failure ["1.0.0"] "garbage").1 (by decide)⟩

/-- C4: when the requested version is not a prerelease and the version under
test is, `isOlderVersion` strips the prerelease suffix and evaluates
less-than-range OR the substring guard on the stripped version; when the
requested version is itself a prerelease, the plain less-than-range test is
applied to the unmodified version. -/
theorem isOlderVersion_prerelease_correction (version requestedVersion : String) :
    (semverPrerelease requestedVersion = none →
      ∀ comps, semverPrerelease version = some comps →
        isOlderVersion version requestedVersion =
          (semverLtr (strippedPrerelease version comps) requestedVersion).map
            (fun b => b ||
              hasSubstring (strippedPrerelease version comps).data
                requestedVersion.data)) ∧
    (∀ p, semverPrerelease requestedVersion = some p →
      isOlderVersion version requestedVersion =
        semverLtr version requestedVersion) := by
  constructor
  · intro h comps hc
    unfold isOlderVersion
    rw [h, hc]
    cases hl : semverLtr (strippedPrerelease version comps) requestedVersion <;>
      simp [hl]
  · intro p hp
    unfold isOlderVersion
    rw [hp]

theorem isOlderVersion_prerelease_correction_witness :
    (semverPrerelease "2.0.0" = none ∧
      semverPrerelease "1.2.3-beta.1" = some ["beta", "1"] ∧
      isOlderVersion "1.2.3-beta.1" "2.0.0" =
        (semverLtr (strippedPrerelease "1.2.3-beta.1" ["beta", "1"]) "2.0.0").map
          (fun b => b ||
            hasSubstring (strippedPrerelease "1.2.3-beta.1" ["beta", "1"]).data
              "2.0.0".data)) ∧
    (semverPrerelease "1.0.0-rc.1" = some ["rc", "1"] ∧
      isOlderVersion "1.2.3-beta.1" "1.0.0-rc.1" =
        semverLtr "1.2.3-beta.1" "1.0.0-rc.1") :=
  ⟨⟨by decide, by decide,
      (isOlderVersion_prerelease_correction "1.2.3-beta.1" "2.0.0").1 (by decide)
        ["beta", "1"] (by decide)⟩,
    ⟨by decide,
      (isOlderVersion_prerelease_correction "1.2.3-beta.1" "1.0.0-rc.1").2
        ["rc", "1"] (by decide)⟩⟩

/-- C6: order-sensitive deduplication — with the two beta tags in registry
order and stages 1–4 removing nothing, `applyTagFilterRules` keeps the first
occurrence `1.0.0-beta.1` and discards the numerically newer
`1.0.0-beta.2`. -/
theorem applyTagFilterRules_dedupe_keeps_first
    (requestedVersion : String) (satisfiesVersion : Option String)
    (latestVersion : String) (versionMatchNotFound : Bool)
    (h : applyStages14 [⟨"beta", "1.0.0-beta.1"⟩, ⟨"beta", "1.0.0-beta.2"⟩]
        requestedVersion satisfiesVersion latestVersion versionMatchNotFound =
      some [⟨"beta", "1.0.0-beta.1"⟩, ⟨"beta", "1.0.0-beta.2"⟩]) :
    applyTagFilterRules [⟨"beta", "1.0.0-beta.1"⟩, ⟨"beta", "1.0.0-beta.2"⟩]
        requestedVersion satisfiesVersion latestVersion versionMatchNotFound =
      some [⟨"beta", "1.0.0-beta.1"⟩] := by
  unfold applyTagFilterRules
  rw [h]
  decide

theorem applyTagFilterRules_dedupe_keeps_first_witness :
    applyStages14 [⟨"beta", "1.0.0-beta.1"⟩, ⟨"beta", "1.0.0-beta.2"⟩] "garbage"
        (some "9.9.9") "8.8.8" false =
      some [⟨"beta", "1.0.0-beta.1"⟩, ⟨"beta", "1.0.0-beta.2"⟩] ∧
    applyTagFilterRules [⟨"beta", "1.0.0-beta.1"⟩, ⟨"beta", "1.0.0-beta.2"⟩]
        "garbage" (some "9.9.9") "8.8.8" false =
      some [⟨"beta", "1.0.0-beta.1"⟩] :=
  ⟨by decide,
    applyTagFilterRules_dedupe_keeps_first "garbage" (some "9.9.9") "8.8.8" false
      (by decide)⟩

/-- C1 (counterexample): on Scenario A's input the latest entry carries
`releases[0] = "1.0.0"` (input order preserved, no sorting), not `"2.0.0"`,
so the spec's claimed output is wrong. -/
theorem scenarioA_latest_not_two
    : ¬ (∃ s l, buildTagsFromVersionMap
          (buildMapFromVersionList ["1.0.0", "1.1.0", "2.0.0"] "1.1.0") "1.1.0" =
            some [s, l] ∧ l.version = some "2.0.0") := by
  rintro ⟨s, l, h, hv⟩
  have hc : buildTagsFromVersionMap
      (buildMapFromVersionList ["1.0.0", "1.1.0", "2.0.0"] "1.1.0") "1.1.0" =
      some [⟨"satisfies", some "1.1.0", false, true, false, false, false, false,
              true, true⟩,
            ⟨"latest", some "1.0.0", true, false, false, false, false, false,
              false, false⟩] := by decide
  rw [hc] at h
  simp only [Option.some.injEq, List.cons.injEq, and_true] at h
  rw [← h.2] at hv
  simp at hv

/-- C1 (amended): Scenario A yields the claimed version map, and
`buildTagsFromVersionMap` yields exactly two entries — the satisfies entry
with version `1.1.0`, `isFixedVersion` true and `isLatestVersion` false,
followed by a latest entry whose version is `releases[0] = "1.0.0"` (the
first release in input order) with `isOlderThanRequested` true. -/
theorem scenarioA_output :
    buildMapFromVersionList ["1.0.0", "1.1.0", "2.0.0"] "1.1.0" =
      ⟨["1.0.0", "1.1.0", "2.0.0"], [], some "1.1.0"⟩ ∧
    buildTagsFromVersionMap
        (buildMapFromVersionList ["1.0.0", "1.1.0", "2.0.0"] "1.1.0") "1.1.0" =
      some [⟨"satisfies", some "1.1.0", false, true, false, false, false, false,
              true, true⟩,
            ⟨"latest", some "1.0.0", true, false, false, false, false, false,
              false, false⟩] := by
  constructor
  · decide
  · decide

/-- C2 (counterexample): with `rawVersions = ["2.0.0"]` and
`requestedVersion = ">=2.0.0"` the latest entry is present and both the
satisfies and latest entries carry `"2.0.0"`. -/
theorem latest_version_can_equal_satisfies
    : ¬ (∀ out s l rest,
          buildTagsFromVersionMap (buildMapFromVersionList ["2.0.0"] ">=2.0.0")
              ">=2.0.0" = some out →
            out = s :: l :: rest → l.name = "latest" →
              s.version ≠ l.version) := by
  intro h
  have hc : buildTagsFromVersionMap (buildMapFromVersionList ["2.0.0"] ">=2.0.0")
      ">=2.0.0" =
      some [⟨"satisfies", some "2.0.0", false, false, false, true, false, false,
              false, true⟩,
            ⟨"latest", some "2.0.0", false, false, false, false, false, false,
              false, false⟩] := by decide
  exact h _ _ _ _ hc rfl rfl (by decide)

/-- C3 (counterexample): `isOlderVersion` is not exception-free — on the
unparseable version `"garbage"` the underlying `semver.ltr` throws
(modelled by `none`). -/
theorem isOlderVersion_raises_on_garbage :
    isOlderVersion "garbage" "1.0.0" = none := by decide

/-- `h'` extends `h`: same contents below `h.length`, possibly more arrays. -/
def HeapExtends (h h' : Heap) : Prop :=
  h.length ≤ h'.length ∧ ∀ i, i < h.length → h'[i]? = h[i]?

theorem heapExtends_refl (h : Heap) : HeapExtends h h :=
  ⟨le_refl _, fun _ _ => rfl⟩

theorem heapExtends_alloc {h h' : Heap} (l : List TaggedVersion)
    (he : HeapExtends h h') : HeapExtends h (h' ++ [l]) := by
  refine ⟨?_, ?_⟩
  · have := he.1; simp; omega
  · intro i hi
    rw [List.getElem?_append, if_pos (lt_of_lt_of_le hi he.1)]
    exact he.2 i hi

theorem heapExtends_stagePure {h : Heap} {p : Heap × Nat}
    (f : List TaggedVersion → List TaggedVersion) (he : HeapExtends h p.1) :
    HeapExtends h (stagePure p f).1 ∧ h.length ≤ (stagePure p f).2 := by
  constructor
  · exact heapExtends_alloc _ he
  · exact he.1

theorem heapExtends_stageOpt {h : Heap} {p p' : Heap × Nat}
    {f : List TaggedVersion → Option (List TaggedVersion)}
    (hs : stageOpt p f = some p') (he : HeapExtends h p.1) :
    HeapExtends h p'.1 := by
  unfold stageOpt at hs
  cases hf : f (readArr p.1 p.2) with
  | none => rw [hf] at hs; exact absurd hs (by simp)
  | some l =>
    rw [hf] at hs
    have : p' = allocArr p.1 l := by
      simpa using hs.symm
    rw [this]
    exact heapExtends_alloc _ he

theorem heapExtends_heapStage1 {h : Heap} {p p' : Heap × Nat} {r : String}
    (hs : heapStage1 p r = some p') (he : HeapExtends h p.1) :
    HeapExtends h p'.1 := by
  unfold heapStage1 at hs
  by_cases hv : semverValidRange r = true
  · rw [if_pos hv] at hs
    exact heapExtends_stageOpt hs he
  · rw [if_neg hv] at hs
    have : p' = p := by simpa using hs.symm
    rw [this]
    exact he

theorem heapExtends_heapStage4 {h : Heap} {p p' : Heap × Nat} {lv : String}
    {nf : Bool} (hs : heapStage4 p lv nf = some p') (he : HeapExtends h p.1) :
    HeapExtends h p'.1 := by
  unfold heapStage4 at hs
  by_cases hv : nf = true
  · rw [if_pos hv] at hs
    exact heapExtends_stageOpt hs he
  · rw [if_neg hv] at hs
    have : p' = p := by simpa using hs.symm
    rw [this]
    exact he

theorem heapExtends_heapStages23 {h : Heap} {p : Heap × Nat}
    (sv : Option String) (lv : String) (he : HeapExtends h p.1) :
    HeapExtends h (heapStages23 p sv lv).1 :=
  (heapExtends_stagePure _ ((heapExtends_stagePure _ he).1)).1

theorem heapExtends_heapStages567 {h : Heap} {p : Heap × Nat}
    (he : HeapExtends h p.1) :
    HeapExtends h (heapStages567 p).1 ∧ h.length ≤ (heapStages567 p).2 :=
  heapExtends_stagePure _
    ((heapExtends_stagePure _ ((heapExtends_stagePure _ he).1)).1)

/-- C9: `applyTagFilterRules` never mutates the caller's input array — after
the heap-model run, the array at the input address holds exactly the same
elements as before (the in-place sort only ever touches the private array
allocated by the pipeline). -/
theorem applyTagFilterRulesHeap_preserves_input (h0 : Heap) (inputIdx : Nat)
    (r : String) (sv : Option String) (lv : String) (nf : Bool)
    (hidx : inputIdx < h0.length) :
    ((applyTagFilterRulesHeap h0 inputIdx r sv lv nf).2)[inputIdx]? =
      h0[inputIdx]? := by
  have he1 : HeapExtends h0 (heapSlice h0 inputIdx).1 :=
    heapExtends_alloc _ (heapExtends_refl h0)
  unfold applyTagFilterRulesHeap
  cases h1 : heapStage1 (heapSlice h0 inputIdx) r with
  | none => exact he1.2 inputIdx hidx
  | some p2 =>
    dsimp only
    have he2 : HeapExtends h0 p2.1 := heapExtends_heapStage1 h1 he1
    have he3 : HeapExtends h0 (heapStages23 p2 sv lv).1 :=
      heapExtends_heapStages23 sv lv he2
    cases h4 : heapStage4 (heapStages23 p2 sv lv) lv nf with
    | none => exact he3.2 inputIdx hidx
    | some p5 =>
      dsimp only
      have he5 : HeapExtends h0 p5.1 := heapExtends_heapStage4 h4 he3
      have he8 := heapExtends_heapStages567 he5
      cases hs : jsSortTags (readArr (heapStages567 p5).1 (heapStages567 p5).2) with
      | none => exact he8.1.2 inputIdx hidx
      | some sorted =>
        dsimp only
        dsimp only [writeArr]
        rw [List.getElem?_set_ne (by omega : (heapStages567 p5).2 ≠ inputIdx)]
        exact he8.1.2 inputIdx hidx

theorem applyTagFilterRulesHeap_preserves_input_witness :
    0 < ([[⟨"beta", "1.0.0-beta.1"⟩]] : Heap).length ∧
      ((applyTagFilterRulesHeap [[⟨"beta", "1.0.0-beta.1"⟩]] 0 "garbage"
            (some "9.9.9") "8.8.8" false).2)[0]? =
        ([[⟨"beta", "1.0.0-beta.1"⟩]] : Heap)[0]? :=
  ⟨by decide,
    applyTagFilterRulesHeap_preserves_input [[⟨"beta", "1.0.0-beta.1"⟩]] 0
      "garbage" (some "9.9.9") "8.8.8" false (by decide)⟩

/-! ### Lemmas about the tag filter pipeline -/

theorem jsSortTags_perm {l out : List TaggedVersion}
    (h : jsSortTags l = some out) : out.Perm l := by
  unfold jsSortTags at h
  by_cases h1 : l.length ≤ 1
  · rw [if_pos h1] at h
    injection h with h
    subst h
    exact List.Perm.refl _
  · rw [if_neg h1] at h
    by_cases h2 : (l.all fun t => (parseSemVer t.version).isSome) = true
    · rw [if_pos h2] at h
      injection h with h
      subst h
      exact List.perm_insertionSort _ l
    · rw [if_neg h2] at h
      exact absurd h (by simp)

theorem tagKey_le_bridge {a b : TaggedVersion} {x y : SemVer}
    (ha : parseSemVer a.version = some x) (hb : parseSemVer b.version = some y)
    (hle : tagKey a ≤ tagKey b) :
    ∃ k, sortTagsByRecentVersion a b = some k ∧ k ≤ 0 := by
  refine ⟨if svLtB x y then (1 : Int) else if svGtB x y then -1
      else sortDescending a.name b.name, ?_, ?_⟩
  · unfold sortTagsByRecentVersion
    rw [ha, hb]
  · unfold tagKey at hle
    rw [ha, hb] at hle
    dsimp only at hle
    rw [Prod.Lex.le_iff] at hle
    rcases hle with hlt | ⟨heq, hnames⟩
    · have hyx : svKey y < svKey x := by
        rw [OrderDual.toDual_lt_toDual] at hlt
        exact_mod_cast hlt
      have h1 : svLtB x y = false := decide_eq_false (lt_asymm hyx)
      have h2 : svGtB x y = true := decide_eq_true hyx
      simp [h1, h2]
    · have hba : b.name.data ≤ a.name.data := by
        rw [OrderDual.toDual_le_toDual] at hnames
        exact hnames
      have hxy : svKey x = svKey y := by
        have := OrderDual.toDual_inj.mp heq
        exact_mod_cast this
      have h1 : svLtB x y = false := decide_eq_false (by rw [hxy]; exact lt_irrefl _)
      have h2 : svGtB x y = false := decide_eq_false (by rw [hxy]; exact lt_irrefl _)
      simp only [h1, h2, Bool.false_eq_true, if_false]
      unfold sortDescending
      by_cases hba' : b.name.data < a.name.data
      · simp [hba']
      · simp [hba', not_lt.mpr hba]

theorem jsSortTags_sorted {l out : List TaggedVersion}
    (h : jsSortTags l = some out) :
    out.Pairwise (fun a b => ∃ k, sortTagsByRecentVersion a b = some k ∧ k ≤ 0) := by
  unfold jsSortTags at h
  by_cases h1 : l.length ≤ 1
  · rw [if_pos h1] at h
    injection h with h
    subst h
    rcases l with _ | ⟨a, _ | ⟨b, t⟩⟩
    · exact List.Pairwise.nil
    · exact List.pairwise_singleton _ _
    · simp at h1
  · rw [if_neg h1] at h
    by_cases h2 : (l.all fun t => (parseSemVer t.version).isSome) = true
    · rw [if_pos h2] at h
      injection h with h
      subst h
      have hval : ∀ t ∈ l, (parseSemVer t.version).isSome := by
        simpa [List.all_eq_true] using h2
      haveI : IsTotal TaggedVersion (fun a b => tagKey a ≤ tagKey b) :=
        ⟨fun a b => le_total _ _⟩
      haveI : IsTrans TaggedVersion (fun a b => tagKey a ≤ tagKey b) :=
        ⟨fun a b c hab hbc => le_trans hab hbc⟩
      have hs := List.sorted_insertionSort (fun a b => tagKey a ≤ tagKey b) l
      refine hs.imp_of_mem ?_
      intro a b hma hmb hab
      have hva := hval a
        ((List.perm_insertionSort (fun a b => tagKey a ≤ tagKey b) l).mem_iff.mp hma)
      have hvb := hval b
        ((List.perm_insertionSort (fun a b => tagKey a ≤ tagKey b) l).mem_iff.mp hmb)
      rcases hx : parseSemVer a.version with _ | x
      · rw [hx] at hva; exact absurd hva (by simp)
      · rcases hy : parseSemVer b.version with _ | y
        · rw [hy] at hvb; exact absurd hvb (by simp)
        · exact tagKey_le_bridge hx hy hab
    · rw [if_neg h2] at h
      exact absurd h (by simp)

theorem reduceTags_foldl_nodup_names :
    ∀ (l acc : List TaggedVersion),
      ((acc.map (fun t => t.name)).Nodup) →
      (((l.foldl (fun unique current =>
          if unique.any (fun x => x.name == current.name) then unique
          else unique ++ [current]) acc).map (fun t => t.name)).Nodup) := by
  intro l
  induction l with
  | nil => intro acc h; exact h
  | cons c cs ih =>
    intro acc h
    rw [List.foldl_cons]
    by_cases hc : acc.any (fun x => x.name == c.name) = true
    · rw [if_pos hc]
      exact ih acc h
    · rw [if_neg hc]
      apply ih
      rw [List.map_append]
      refine List.Nodup.append h (by simp) ?_
      intro a ha hb
      simp only [List.map_cons, List.map_nil, List.mem_singleton] at hb
      subst hb
      simp only [List.any_eq_true, beq_iff_eq, not_exists, not_and] at hc
      obtain ⟨t, ht, he⟩ := List.mem_map.mp ha
      exact hc t ht he

theorem reduceTags_nodup_names (l : List TaggedVersion) :
    ((reduceTagsByUniqueNames l).map (fun t => t.name)).Nodup := by
  unfold reduceTagsByUniqueNames
  exact reduceTags_foldl_nodup_names l [] (by simp)

theorem removeTagsWithName_not_name {l : List TaggedVersion} {n : String}
    {t : TaggedVersion} (h : t ∈ removeTagsWithName l n) : ¬(t.name = n) := by
  unfold removeTagsWithName at h
  have := (List.mem_filter.mp h).2
  simpa using this

/-- The final three stages plus the sort: membership characterization used
for C2, C5 and C7. -/
theorem applyTagFilterRules_dest {tv : List TaggedVersion} {r : String}
    {sv : Option String} {lv : String} {nf : Bool} {out : List TaggedVersion}
    (h : applyTagFilterRules tv r sv lv nf = some out) :
    ∃ z, applyStages14 tv r sv lv nf = some z ∧
      jsSortTags (removeTagsWithName
        (reduceTagsByUniqueNames (removeAmbiguousTagNames z)) "latest") =
        some out := by
  unfold applyTagFilterRules at h
  cases ha : applyStages14 tv r sv lv nf with
  | none => rw [ha] at h; exact absurd h (by simp)
  | some z =>
    rw [ha] at h
    exact ⟨z, rfl, h⟩

theorem applyTagFilterRules_no_latest {tv : List TaggedVersion} {r : String}
    {sv : Option String} {lv : String} {nf : Bool} {out : List TaggedVersion}
    (h : applyTagFilterRules tv r sv lv nf = some out) :
    ∀ t ∈ out, ¬(t.name = "latest") := by
  obtain ⟨z, _, hz⟩ := applyTagFilterRules_dest h
  intro t ht
  exact removeTagsWithName_not_name ((jsSortTags_perm hz).mem_iff.mp ht)

/-- C5: any list returned by `applyTagFilterRules` is sorted descending by
the source comparator, contains no entry named "latest", and contains no
two entries with the same name. -/
theorem applyTagFilterRules_sorted_unique_no_latest
    (taggedVersions : List TaggedVersion) (requestedVersion : String)
    (satisfiesVersion : Option String) (latestVersion : String)
    (versionMatchNotFound : Bool) (out : List TaggedVersion)
    (h : applyTagFilterRules taggedVersions requestedVersion satisfiesVersion
        latestVersion versionMatchNotFound = some out) :
    out.Pairwise (fun a b => ∃ k, sortTagsByRecentVersion a b = some k ∧ k ≤ 0) ∧
      (∀ t ∈ out, ¬(t.name = "latest")) ∧
      (out.map (fun t => t.name)).Nodup := by
  obtain ⟨z, _, hz⟩ := applyTagFilterRules_dest h
  refine ⟨jsSortTags_sorted hz, applyTagFilterRules_no_latest h, ?_⟩
  have hsub : List.Sublist
      ((removeTagsWithName (reduceTagsByUniqueNames (removeAmbiguousTagNames z))
          "latest").map (fun t => t.name))
      ((reduceTagsByUniqueNames (removeAmbiguousTagNames z)).map (fun t => t.name)) :=
    List.Sublist.map _ (List.filter_sublist _)
  have hz2 := List.Nodup.sublist hsub (reduceTags_nodup_names _)
  exact ((jsSortTags_perm hz).map (fun t => t.name)).nodup_iff.mpr hz2

theorem applyTagFilterRules_sorted_unique_no_latest_witness :
    applyTagFilterRules [⟨"beta", "1.0.0-beta.1"⟩, ⟨"rc", "1.0.0-rc.1"⟩] ""
        (some "9.9.9") "8.8.8" false =
      some [⟨"rc", "1.0.0-rc.1"⟩, ⟨"beta", "1.0.0-beta.1"⟩] ∧
    ((List.Pairwise (fun a b => ∃ k, sortTagsByRecentVersion a b = some k ∧ k ≤ 0)
        [⟨"rc", "1.0.0-rc.1"⟩, ⟨"beta", "1.0.0-beta.1"⟩]) ∧
      (∀ t ∈ ([⟨"rc", "1.0.0-rc.1"⟩, ⟨"beta", "1.0.0-beta.1"⟩] : List TaggedVersion),
        ¬(t.name = "latest")) ∧
      (([⟨"rc", "1.0.0-rc.1"⟩, ⟨"beta", "1.0.0-beta.1"⟩] : List TaggedVersion).map
          (fun t => t.name)).Nodup) :=
  ⟨by decide,
    applyTagFilterRules_sorted_unique_no_latest
      [⟨"beta", "1.0.0-beta.1"⟩, ⟨"rc", "1.0.0-rc.1"⟩] "" (some "9.9.9") "8.8.8"
      false [⟨"rc", "1.0.0-rc.1"⟩, ⟨"beta", "1.0.0-beta.1"⟩] (by decide)⟩

/-- C7: the output of `buildTagsFromVersionMap` is non-empty, its first
element is the "satisfies" entry, and the second element is the "latest"
entry exactly when the satisfies entry's `isLatestVersion` flag is false. -/
theorem buildTags_nonempty_satisfies_first (versionMap : VersionMap)
    (requestedVersion : String) (out : List ResolvedTag)
    (h : buildTagsFromVersionMap versionMap requestedVersion = some out) :
    ∃ s rest, out = s :: rest ∧ s.name = "satisfies" ∧
      (s.isLatestVersion = false ↔
        ∃ l rest2, rest = l :: rest2 ∧ l.name = "latest") := by
  unfold buildTagsFromVersionMap at h
  cases h1 : buildLatestVersionOpt versionMap with
  | none => rw [h1] at h; exact absurd h (by simp)
  | some latestVersion =>
    rw [h1] at h
    dsimp only at h
    cases h2 : buildOlderOpt versionMap requestedVersion latestVersion with
    | none => rw [h2] at h; exact absurd h (by simp)
    | some isOlder =>
      rw [h2] at h
      dsimp only at h
      cases h3 : buildIsFixedOpt requestedVersion with
      | none => rw [h3] at h; exact absurd h (by simp)
      | some isFixed =>
        rw [h3] at h
        dsimp only at h
        cases h4 : buildNewerOpt versionMap latestVersion with
        | none => rw [h4] at h; exact absurd h (by simp)
        | some isNewer =>
          rw [h4] at h
          dsimp only at h
          cases h5 : applyTagFilterRules versionMap.taggedVersions
              requestedVersion versionMap.maxSatisfyingVersion latestVersion
              (buildVersionMatchNotFound versionMap) with
          | none => rw [h5] at h; exact absurd h (by simp)
          | some tags =>
            rw [h5] at h
            dsimp only at h
            injection h with h
            refine ⟨_, _, h.symm, rfl, ?_⟩
            dsimp only
            by_cases hil :
                buildIsLatest versionMap requestedVersion latestVersion = true
            · rw [if_pos hil]
              simp only [List.append_eq, List.nil_append]
              constructor
              · intro hf
                rw [hil] at hf
                exact absurd hf (by simp)
              · rintro ⟨l, rest2, hr, hname⟩
                have hl : l ∈ tags.map
                    (fun t => ({ name := t.name, version := some t.version } :
                      ResolvedTag)) := by
                  rw [hr]
                  exact List.mem_cons_self _ _
                obtain ⟨t, ht, he⟩ := List.mem_map.mp hl
                have : t.name = "latest" := by
                  rw [← hname, ← he]
                exact absurd this (applyTagFilterRules_no_latest h5 t ht)
            · rw [if_neg hil]
              simp only [Bool.not_eq_true] at hil
              simp only [List.append_eq, List.singleton_append]
              constructor
              · intro _
                exact ⟨_, _, rfl, rfl⟩
              · intro _
                exact hil

theorem buildTags_nonempty_satisfies_first_witness :
    buildTagsFromVersionMap ⟨["1.0.0", "1.1.0", "2.0.0"], [], some "1.1.0"⟩
        "1.1.0" =
      some [⟨"satisfies", some "1.1.0", false, true, false, false, false, false,
              true, true⟩,
            ⟨"latest", some "1.0.0", true, false, false, false, false, false,
              false, false⟩] ∧
    (∃ s rest,
      ([⟨"satisfies", some "1.1.0", false, true, false, false, false, false,
          true, true⟩,
        ⟨"latest", some "1.0.0", true, false, false, false, false, false,
          false, false⟩] : List ResolvedTag) = s :: rest ∧
        s.name = "satisfies" ∧
        (s.isLatestVersion = false ↔
          ∃ l rest2, rest = l :: rest2 ∧ l.name = "latest")) :=
  ⟨by decide,
    buildTags_nonempty_satisfies_first ⟨["1.0.0", "1.1.0", "2.0.0"], [],
        some "1.1.0"⟩ "1.1.0" _ (by decide)⟩

/-! ### Lemmas about the version grammar -/

theorem splitAtChar_recover (c : Char) :
    ∀ l : List Char,
      l = (splitAtChar c l).1 ++
        (match (splitAtChar c l).2 with
         | none => []
         | some r => c :: r) := by
  intro l
  induction l with
  | nil => rfl
  | cons x xs ih =>
    unfold splitAtChar
    by_cases hx : x = c
    · rw [if_pos hx]
      simpa using hx
    · rw [if_neg hx]
      show x :: xs = x :: ((splitAtChar c xs).1 ++
        (match (splitAtChar c xs).2 with
         | none => []
         | some r => c :: r))
      exact congrArg (x :: ·) ih

theorem splitAtChar_fst_mem (c : Char) :
    ∀ (l : List Char) (x : Char), x ∈ (splitAtChar c l).1 → x ∈ l ∧ ¬(x = c) := by
  intro l
  induction l with
  | nil => intro x hx; exact absurd hx (by simp [splitAtChar])
  | cons y ys ih =>
    intro x hx
    unfold splitAtChar at hx
    by_cases hy : y = c
    · rw [if_pos hy] at hx
      exact absurd hx (by simp)
    · rw [if_neg hy] at hx
      dsimp only at hx
      rcases List.mem_cons.mp hx with h | h
      · subst h
        exact ⟨List.mem_cons_self _ _, hy⟩
      · obtain ⟨h1, h2⟩ := ih x h
        exact ⟨List.mem_cons_of_mem _ h1, h2⟩

theorem splitAtChar_not_mem (c : Char) :
    ∀ l : List Char, ¬(c ∈ l) → splitAtChar c l = (l, none) := by
  intro l
  induction l with
  | nil => intro _; rfl
  | cons x xs ih =>
    intro h
    unfold splitAtChar
    have hx : ¬(x = c) := fun e => h (by rw [e]; exact List.mem_cons_self _ _)
    rw [if_neg hx, ih (fun hm => h (List.mem_cons_of_mem _ hm))]

theorem splitAtChar_append (c : Char) (a r : List Char) (h : ¬(c ∈ a)) :
    splitAtChar c (a ++ c :: r) = (a, some r) := by
  induction a with
  | nil => simp [splitAtChar]
  | cons x xs ih =>
    have hx : ¬(x = c) := fun e => h (by rw [e]; exact List.mem_cons_self _ _)
    rw [List.cons_append]
    unfold splitAtChar
    rw [if_neg hx, ih (fun hm => h (List.mem_cons_of_mem _ hm))]

theorem splitDots_ne_nil : ∀ l : List Char, ¬(splitDots l = []) := by
  intro l
  induction l with
  | nil => simp [splitDots]
  | cons x xs ih =>
    unfold splitDots
    by_cases hx : x = '.'
    · rw [if_pos hx]; simp
    · rw [if_neg hx]
      cases h : splitDots xs with
      | nil => exact absurd h ih
      | cons g gs => simp

theorem joinDots_splitDots : ∀ l : List Char, joinDots (splitDots l) = l := by
  intro l
  induction l with
  | nil => rfl
  | cons x xs ih =>
    unfold splitDots
    by_cases hx : x = '.'
    · rw [if_pos hx]
      cases h : splitDots xs with
      | nil => exact absurd h (splitDots_ne_nil xs)
      | cons g gs =>
        rw [h] at ih
        subst hx
        show joinDots ([] :: g :: gs) = '.' :: xs
        unfold joinDots
        rw [List.nil_append]
        exact congrArg ('.' :: ·) ih
    · rw [if_neg hx]
      cases h : splitDots xs with
      | nil => exact absurd h (splitDots_ne_nil xs)
      | cons g gs =>
        rw [h] at ih
        cases gs with
        | nil =>
          show joinDots [x :: g] = x :: xs
          unfold joinDots
          rw [show joinDots [g] = g from rfl] at ih
          exact congrArg (x :: ·) ih
        | cons g2 gs2 =>
          show joinDots ((x :: g) :: g2 :: gs2) = x :: xs
          unfold joinDots
          rw [List.cons_append]
          refine congrArg (x :: ·) ?_
          calc g ++ '.' :: joinDots (g2 :: gs2) = joinDots (g :: g2 :: gs2) := rfl
          _ = xs := ih

theorem replaceFirst_boundary (a p t repl : List Char) (h : ¬('-' ∈ a)) :
    replaceFirstChars (a ++ '-' :: (p ++ t)) ('-' :: p) repl =
      a ++ (repl ++ t) := by
  induction a with
  | nil =>
    rw [List.nil_append, List.nil_append]
    unfold replaceFirstChars
    have hpre : (('-' :: p).isPrefixOf ('-' :: (p ++ t))) = true := by
      have : '-' :: (p ++ t) = ('-' :: p) ++ t := by rw [List.cons_append]
      rw [this]
      exact List.isPrefixOf_iff_prefix.mpr (List.prefix_append _ _)
    rw [if_pos hpre]
    have : '-' :: (p ++ t) = ('-' :: p) ++ t := by rw [List.cons_append]
    rw [this, List.drop_left]
  | cons x xs ih =>
    have hx : ¬(x = '-') := fun e => h (by rw [e]; exact List.mem_cons_self _ _)
    rw [List.cons_append]
    unfold replaceFirstChars
    have hpre : (('-' :: p).isPrefixOf (x :: (xs ++ '-' :: (p ++ t)))) = false := by
      unfold List.isPrefixOf
      have : ('-' == x) = false := by
        simp only [beq_eq_false_iff_ne, ne_eq]
        exact fun e => hx e.symm
      rw [this]
      rfl
    rw [hpre]
    rw [if_neg (Bool.false_ne_true)]
    rw [List.cons_append]
    exact congrArg (x :: ·) (ih (fun hm => h (List.mem_cons_of_mem _ hm)))

theorem parseSemVerChars_strip {l : List Char} {sv : SemVer}
    (h : parseSemVerChars l = some sv) (hpre : ¬(sv.pre = [])) :
    parseSemVerChars
        (replaceFirstChars l ('-' :: joinDots (sv.pre.map (fun s => s.data))) []) =
      some ⟨sv.major, sv.minor, sv.patch, [], sv.build⟩ := by
  unfold parseSemVerChars at h
  cases hm : parseMain (splitAtChar '-' (splitAtChar '+' l).1).1 with
  | none => rw [hm] at h; exact absurd h (by simp)
  | some m =>
    rw [hm] at h
    cases hp : parsePreOpt (splitAtChar '-' (splitAtChar '+' l).1).2 with
    | none => rw [hp] at h; exact absurd h (by simp)
    | some pre =>
      rw [hp] at h
      cases hb : parseBuildOpt (splitAtChar '+' l).2 with
      | none => rw [hb] at h; exact absurd h (by simp)
      | some bld =>
        rw [hb] at h
        dsimp only at h
        injection h with h
        subst h
        dsimp only at hpre ⊢
        -- the prerelease part is present
        cases hpo : (splitAtChar '-' (splitAtChar '+' l).1).2 with
        | none =>
          rw [hpo] at hp
          unfold parsePreOpt at hp
          dsimp only at hp
          injection hp with hp
          exact absurd hp.symm hpre
        | some pcs =>
          rw [hpo] at hp
          unfold parsePreOpt at hp
          dsimp only at hp
          by_cases hall : ((splitDots pcs).all validPreId) = true
          · rw [if_pos hall] at hp
            injection hp with hp
            -- the replace pattern is exactly '-' :: pcs
            have hdata : pre.map (fun s => s.data) = splitDots pcs := by
              rw [← hp, List.map_map]
              have : ((fun s : String => s.data) ∘ String.mk) = fun g => g := rfl
              rw [this]
              exact List.map_id _
            have hjoin : joinDots (pre.map (fun s => s.data)) = pcs := by
              rw [hdata, joinDots_splitDots]
            -- decompose l
            have hnm : ¬('-' ∈ (splitAtChar '-' (splitAtChar '+' l).1).1) := by
              intro hmem
              exact (splitAtChar_fst_mem '-' _ '-' hmem).2 rfl
            have hnp : ¬('+' ∈ (splitAtChar '-' (splitAtChar '+' l).1).1) := by
              intro hmem
              have h1 := (splitAtChar_fst_mem '-' (splitAtChar '+' l).1 '+' hmem).1
              exact (splitAtChar_fst_mem '+' l '+' h1).2 rfl
            have hcore : (splitAtChar '+' l).1 =
                (splitAtChar '-' (splitAtChar '+' l).1).1 ++ '-' :: pcs := by
              have := splitAtChar_recover '-' (splitAtChar '+' l).1
              rw [hpo] at this
              exact this
            rw [hjoin]
            cases hbo : (splitAtChar '+' l).2 with
            | none =>
              have hl : l = (splitAtChar '-' (splitAtChar '+' l).1).1 ++
                  '-' :: (pcs ++ []) := by
                have h0 := splitAtChar_recover '+' l
                rw [hbo] at h0
                rw [List.append_nil]
                calc l = (splitAtChar '+' l).1 ++ [] := h0
                _ = (splitAtChar '+' l).1 := (List.append_nil _)
                _ = (splitAtChar '-' (splitAtChar '+' l).1).1 ++ '-' :: pcs := hcore
              rw [hl, replaceFirst_boundary _ _ _ _ hnm, List.nil_append,
                List.append_nil]
              -- parse the stripped main part
              unfold parseSemVerChars
              rw [splitAtChar_not_mem '+' _ hnp]
              dsimp only
              rw [splitAtChar_not_mem '-' _ hnm]
              dsimp only
              rw [hm]
              rw [hbo] at hb
              unfold parseBuildOpt at hb
              injection hb with hb
              rw [← hb]
              rfl
            | some bcs =>
              have hl : l = (splitAtChar '-' (splitAtChar '+' l).1).1 ++
                  '-' :: (pcs ++ '+' :: bcs) := by
                have h0 := splitAtChar_recover '+' l
                rw [hbo] at h0
                calc l = (splitAtChar '+' l).1 ++ '+' :: bcs := h0
                _ = ((splitAtChar '-' (splitAtChar '+' l).1).1 ++ '-' :: pcs) ++
                    '+' :: bcs := by rw [← hcore]
                _ = (splitAtChar '-' (splitAtChar '+' l).1).1 ++
                    ('-' :: pcs ++ '+' :: bcs) := by rw [List.append_assoc]
                _ = (splitAtChar '-' (splitAtChar '+' l).1).1 ++
                    '-' :: (pcs ++ '+' :: bcs) := by rw [List.cons_append]
              rw [hl, replaceFirst_boundary _ _ _ _ hnm, List.nil_append]
              unfold parseSemVerChars
              rw [splitAtChar_append '+' _ _ hnp]
              dsimp only
              rw [splitAtChar_not_mem '-' _ hnm]
              dsimp only
              rw [hm]
              rw [hbo] at hb
              rw [hb]
              rfl
          · rw [if_neg hall] at hp
            exact absurd hp (by simp)

theorem semverLtr_isSome {v r : String} {sv : SemVer} {cs : List Comparator}
    (hv : parseSemVer v = some sv) (hr : parseRange r = some cs) :
    semverLtr v r = some (outsideLower sv cs) := by
  unfold semverLtr
  rw [hv, hr]

/-- C3 (amended): `isOlderVersion` raises no exception whenever `version` is
a valid semantic version and `requestedVersion` is a valid range; on
degenerate input the underlying `semver.ltr` may throw. -/
theorem isOlderVersion_total_on_valid (version requestedVersion : String)
    (hv : (parseSemVer version).isSome = true)
    (hr : semverValidRange requestedVersion = true) :
    (isOlderVersion version requestedVersion).isSome = true := by
  obtain ⟨sv, hsv⟩ := Option.isSome_iff_exists.mp hv
  obtain ⟨cs, hcs⟩ := Option.isSome_iff_exists.mp
    (by unfold semverValidRange at hr; exact hr)
  unfold isOlderVersion
  cases hq : semverPrerelease requestedVersion with
  | some p => rw [semverLtr_isSome hsv hcs]; rfl
  | none =>
    cases hqv : semverPrerelease version with
    | none => rw [semverLtr_isSome hsv hcs]; rfl
    | some comps =>
      -- the components are exactly the prerelease of the parsed version
      unfold semverPrerelease at hqv
      rw [hsv] at hqv
      dsimp only [Option.bind] at hqv
      by_cases hemp : sv.pre.isEmpty = true
      · rw [if_pos hemp] at hqv
        exact absurd hqv (by simp)
      · rw [if_neg hemp] at hqv
        injection hqv with hqv
        subst hqv
        have hstrip := @parseSemVerChars_strip version.data sv
          hsv (by simpa using hemp)
        have hps : parseSemVer (strippedPrerelease version sv.pre) =
            some ⟨sv.major, sv.minor, sv.patch, [], sv.build⟩ := by
          unfold parseSemVer strippedPrerelease
          exact hstrip
        dsimp only
        rw [semverLtr_isSome hps hcs]
        rfl

theorem isOlderVersion_total_on_valid_witness :
    (parseSemVer "1.2.3-beta.1").isSome = true ∧
      semverValidRange "^1.0.0" = true ∧
      (isOlderVersion "1.2.3-beta.1" "^1.0.0").isSome = true :=
  ⟨by decide, by decide,
    isOlderVersion_total_on_valid "1.2.3-beta.1" "^1.0.0" (by decide) (by decide)⟩

/-! ### Lemmas for the latest/satisfies relationship -/

theorem parseVersion_version (v : String) : (parseVersion v).version = v := by
  unfold parseVersion
  cases semverPrerelease v <;> rfl

theorem pluck_mem_validRange {raw : List String} {s : String}
    (h : s ∈ pluckSemverVersions raw) : semverValidRange s = true := by
  unfold pluckSemverVersions at h
  exact (List.mem_filter.mp h).2

theorem releases_mem {vs : List String} {s : String}
    (h : s ∈ (pluckTagsAndReleases vs).releases) : s ∈ vs := by
  unfold pluckTagsAndReleases at h
  dsimp only at h
  obtain ⟨vi, hvi, he⟩ := List.mem_map.mp h
  have h2 := List.mem_of_mem_filter hvi
  obtain ⟨v, hv, he2⟩ := List.mem_map.mp h2
  rw [← he, ← he2, parseVersion_version]
  exact hv

theorem tagged_mem {vs : List String} {t : TaggedVersion}
    (h : t ∈ (pluckTagsAndReleases vs).taggedVersions) : t.version ∈ vs := by
  unfold pluckTagsAndReleases at h
  dsimp only at h
  obtain ⟨vi, hvi, he⟩ := List.mem_map.mp h
  have h2 := List.mem_of_mem_filter hvi
  obtain ⟨v, hv, he2⟩ := List.mem_map.mp h2
  have : t.version = vi.version := by rw [← he]
  rw [this, ← he2, parseVersion_version]
  exact hv

theorem head?_mem {α : Type} {l : List α} {a : α} (h : l.head? = some a) :
    a ∈ l := by
  cases l with
  | nil => exact absurd h (by simp)
  | cons x xs =>
    have : x = a := by simpa using h
    rw [← this]
    exact List.mem_cons_self _ _

theorem buildMap_releases (raw : List String) (r : String) :
    (buildMapFromVersionList raw r).releases =
      (pluckTagsAndReleases (pluckSemverVersions raw)).releases := rfl

theorem buildMap_tagged (raw : List String) (r : String) :
    (buildMapFromVersionList raw r).taggedVersions =
      (pluckTagsAndReleases (pluckSemverVersions raw)).taggedVersions := rfl

theorem buildLatest_mem {raw : List String} {r lv : String}
    (h : buildLatestVersionOpt (buildMapFromVersionList raw r) = some lv) :
    lv ∈ pluckSemverVersions raw := by
  unfold buildLatestVersionOpt at h
  cases hh : (buildMapFromVersionList raw r).releases.head? with
  | some s =>
    rw [hh] at h
    dsimp only at h
    by_cases hs : (s == "") = true
    · rw [if_pos hs] at h
      obtain ⟨t, ht, he⟩ := Option.map_eq_some'.mp h
      have := @tagged_mem (pluckSemverVersions raw) t
        (by rw [← buildMap_tagged raw r]; exact head?_mem ht)
      rw [he] at this
      exact this
    · rw [if_neg hs] at h
      injection h with h
      subst h
      exact releases_mem (by rw [← buildMap_releases raw r]; exact head?_mem hh)
  | none =>
    rw [hh] at h
    dsimp only at h
    obtain ⟨t, ht, he⟩ := Option.map_eq_some'.mp h
    have := @tagged_mem (pluckSemverVersions raw) t
      (by rw [← buildMap_tagged raw r]; exact head?_mem ht)
    rw [he] at this
    exact this

theorem maxSat_characterize {raw : List String} {r s : String}
    (h : (buildMapFromVersionList raw r).maxSatisfyingVersion = some s) :
    ((∃ sv, parseSemVer s = some sv) ∧ s ∈ pluckSemverVersions raw) ∨
      (parseRange r = none ∧ s = r) := by
  have hd : deduceMaxSatisfyingFromSemverList (pluckSemverVersions raw) r =
      some s := h
  unfold deduceMaxSatisfyingFromSemverList at hd
  cases hr : parseRange r with
  | none =>
    rw [semverMaxSatisfying_eq_of_invalid _ r hr] at hd
    injection hd with hd
    exact Or.inr ⟨rfl, hd.symm⟩
  | some cs =>
    rw [semverMaxSatisfying_eq_of_parse _ r cs hr] at hd
    cases hf : satisfyingOf cs (pluckSemverVersions raw) with
    | nil => rw [hf] at hd; exact absurd hd (by simp)
    | cons x xs =>
      rw [hf] at hd
      dsimp only at hd
      injection hd with hd
      have hmem : s ∈ x :: xs := by
        rw [← hd]
        rcases foldl_maxPick_mem xs x with h1 | h1
        · rw [h1]; exact List.mem_cons_self _ _
        · exact List.mem_cons_of_mem x h1
      rw [← hf] at hmem
      unfold satisfyingOf at hmem
      have hp := (List.mem_filter.mp hmem).2
      refine Or.inl ⟨?_, List.mem_of_mem_filter hmem⟩
      cases hps : parseSemVer s with
      | none => rw [hps] at hp; exact absurd hp (by simp)
      | some sv => exact ⟨sv, rfl⟩

theorem parseMain_shape {l : List Char} {m : Nat × Nat × Nat}
    (h : parseMain l = some m) :
    ∃ d rest, l = d :: rest ∧ d.isDigit = true := by
  unfold parseMain at h
  cases hsd : splitDots l with
  | nil => rw [hsd] at h; exact absurd h (by simp)
  | cons a gs =>
    rw [hsd] at h
    cases gs with
    | nil => exact absurd h (by simp)
    | cons b gs2 =>
      cases gs2 with
      | nil => exact absurd h (by simp)
      | cons c gs3 =>
        cases gs3 with
        | cons d gs4 => exact absurd h (by simp)
        | nil =>
          dsimp only at h
          by_cases hn : (isNumericId a && isNumericId b && isNumericId c) = true
          · have ha : isNumericId a = true := by
              have := hn
              simp only [Bool.and_eq_true] at this
              exact this.1.1
            unfold isNumericId at ha
            simp only [Bool.and_eq_true] at ha
            have hane : ¬(a = []) := by
              intro he
              rw [he] at ha
              simp at ha
            cases ha2 : a with
            | nil => exact absurd ha2 hane
            | cons d ds =>
              have hdig : d.isDigit = true := by
                have := ha.1.2
                unfold allDigits at this
                rw [ha2] at this
                simp only [List.all_cons, Bool.and_eq_true] at this
                exact this.1
              have hl : l = joinDots [a, b, c] := by
                rw [← hsd, joinDots_splitDots]
              refine ⟨d, ds ++ '.' :: joinDots [b, c], ?_, hdig⟩
              rw [hl, ha2]
              show (d :: ds) ++ '.' :: joinDots [b, c] = d :: (ds ++ '.' :: joinDots [b, c])
              rw [List.cons_append]
          · rw [if_neg hn] at h
            exact absurd h (by simp)

theorem parseSemVerChars_head_digit {l : List Char} {sv : SemVer}
    (h : parseSemVerChars l = some sv) :
    ∃ d rest, l = d :: rest ∧ d.isDigit = true := by
  unfold parseSemVerChars at h
  cases hm : parseMain (splitAtChar '-' (splitAtChar '+' l).1).1 with
  | none => rw [hm] at h; exact absurd h (by simp)
  | some m =>
    obtain ⟨d, rest, hmain, hdig⟩ := parseMain_shape hm
    have hcore := splitAtChar_recover '-' (splitAtChar '+' l).1
    have hfull := splitAtChar_recover '+' l
    rw [hmain] at hcore
    rw [List.cons_append] at hcore
    rw [hcore] at hfull
    rw [List.cons_append] at hfull
    exact ⟨d, _, hfull, hdig⟩

theorem parseRange_of_digit_head {d : Char} {rest : List Char}
    (hd : d.isDigit = true) :
    parseRangeChars (d :: rest) =
      (parseSemVerChars (d :: rest)).map (fun v => [Comparator.cmp RangeOp.eq v]) := by
  have h1 : ¬(d = '^') := fun e => by rw [e] at hd; exact absurd hd (by decide)
  have h2 : ¬(d = '~') := fun e => by rw [e] at hd; exact absurd hd (by decide)
  have h3 : ¬(d = '>') := fun e => by rw [e] at hd; exact absurd hd (by decide)
  have h4 : ¬(d = '<') := fun e => by rw [e] at hd; exact absurd hd (by decide)
  have h5 : ¬(d = '=') := fun e => by rw [e] at hd; exact absurd hd (by decide)
  unfold parseRangeChars
  dsimp only
  rw [if_neg h1, if_neg h2, if_neg h3, if_neg h4, if_neg h5]

theorem satisfiesSet_self (sv : SemVer) :
    satisfiesSet sv [Comparator.cmp RangeOp.eq sv] = true := by
  unfold satisfiesSet compTest preOk
  simp only [List.all_cons, List.all_nil, List.any_cons, List.any_nil,
    Bool.and_true, Bool.or_false]
  have h1 : svEqB sv sv = true := decide_eq_true rfl
  rw [h1]
  cases he : sv.pre.isEmpty
  · simp
  · simp

theorem semverSatisfies_self {s : String} {sv : SemVer}
    (h : parseSemVer s = some sv) : semverSatisfies (some s) s = true := by
  obtain ⟨d, rest, hsd, hdig⟩ := @parseSemVerChars_head_digit s.data sv h
  have hrange : parseRange s = some [Comparator.cmp RangeOp.eq sv] := by
    unfold parseRange
    rw [hsd, parseRange_of_digit_head hdig, ← hsd]
    unfold parseSemVer at h
    rw [h]
    rfl
  unfold semverSatisfies
  rw [hrange]
  dsimp only
  rw [h]
  exact satisfiesSet_self sv

theorem buildTags_dest {m : VersionMap} {r : String} {out : List ResolvedTag}
    (h : buildTagsFromVersionMap m r = some out) :
    ∃ lv isOlder isFixed isNewer tags,
      buildLatestVersionOpt m = some lv ∧
      buildOlderOpt m r lv = some isOlder ∧
      buildIsFixedOpt r = some isFixed ∧
      buildNewerOpt m lv = some isNewer ∧
      applyTagFilterRules m.taggedVersions r m.maxSatisfyingVersion lv
          (buildVersionMatchNotFound m) = some tags ∧
      out = { name := "satisfies", version := m.maxSatisfyingVersion,
              isNewerThanLatest := isNewer,
              isLatestVersion := buildIsLatest m r lv,
              satisfiesLatest := buildSatisfiesLatest m lv,
              isInvalid := !semverValidRange r,
              versionMatchNotFound := buildVersionMatchNotFound m,
              isFixedVersion := isFixed,
              isPrimaryTag := true } ::
        (if buildIsLatest m r lv = true then []
         else [{ name := "latest", version := some lv,
                 isOlderThanRequested := isOlder }]) ++
          tags.map (fun t => { name := t.name, version := some t.version }) := by
  unfold buildTagsFromVersionMap at h
  cases h1 : buildLatestVersionOpt m with
  | none => rw [h1] at h; exact absurd h (by simp)
  | some lv =>
    rw [h1] at h
    dsimp only at h
    cases h2 : buildOlderOpt m r lv with
    | none => rw [h2] at h; exact absurd h (by simp)
    | some isOlder =>
      rw [h2] at h
      dsimp only at h
      cases h3 : buildIsFixedOpt r with
      | none => rw [h3] at h; exact absurd h (by simp)
      | some isFixed =>
        rw [h3] at h
        dsimp only at h
        cases h4 : buildNewerOpt m lv with
        | none => rw [h4] at h; exact absurd h (by simp)
        | some isNewer =>
          rw [h4] at h
          dsimp only at h
          cases h5 : applyTagFilterRules m.taggedVersions r
              m.maxSatisfyingVersion lv (buildVersionMatchNotFound m) with
          | none => rw [h5] at h; exact absurd h (by simp)
          | some tags =>
            rw [h5] at h
            dsimp only at h
            injection h with h
            exact ⟨lv, isOlder, isFixed, isNewer, tags, rfl, h2, rfl, h4, h5,
              h.symm⟩

/-- C2 (amended): over maps built by `buildMapFromVersionList`, whenever the
latest entry is present and carries the same version as the satisfies entry,
the requested version with a leading `^`/`~` stripped is not textually equal
to the latest version (the two versions can coincide, so the original
invariant fails; this is the precise boundary). -/
theorem latest_eq_satisfies_stripped_ne (rawVersions : List String)
    (requestedVersion : String) (out : List ResolvedTag) (s l : ResolvedTag)
    (rest : List ResolvedTag)
    (h : buildTagsFromVersionMap
        (buildMapFromVersionList rawVersions requestedVersion)
        requestedVersion = some out)
    (hout : out = s :: l :: rest) (hl : l.name = "latest")
    (heq : s.version = l.version) :
    ∀ lv, l.version = some lv →
      ¬(replaceFirstCaretTilde requestedVersion = lv) := by
  obtain ⟨lv, isOlder, isFixed, isNewer, tags, h1, h2, h3, h4, h5, hout2⟩ :=
    buildTags_dest h
  rw [hout] at hout2
  injection hout2 with hs htail
  by_cases hil : buildIsLatest (buildMapFromVersionList rawVersions
      requestedVersion) requestedVersion lv = true
  · -- the latest entry is absent, so the second element is a trailing tag
    rw [if_pos hil] at htail
    simp only [List.append_eq, List.nil_append] at htail
    have hlmem : l ∈ tags.map (fun t =>
        ({ name := t.name, version := some t.version } : ResolvedTag)) := by
      rw [← htail]
      exact List.mem_cons_self _ _
    obtain ⟨t, ht, he⟩ := List.mem_map.mp hlmem
    have : t.name = "latest" := by rw [← hl, ← he]
    exact absurd this (applyTagFilterRules_no_latest h5 t ht)
  · rw [if_neg hil] at htail
    simp only [List.append_eq, List.singleton_append] at htail
    injection htail with hlat _
    intro lv2 hlv2 hstr
    -- the latest entry carries lv
    have hlv : l.version = some lv := by rw [hlat]
    rw [hlv] at hlv2
    injection hlv2 with hlv2
    subst hlv2
    -- the stripped request equals lv, so isLatestVersion reduces to
    -- satisfiesLatest, which must be false
    have hbeq : (replaceFirstCaretTilde requestedVersion == lv) = true :=
      beq_iff_eq.mpr hstr
    have hsl : buildSatisfiesLatest (buildMapFromVersionList rawVersions
        requestedVersion) lv = false := by
      unfold buildIsLatest at hil
      rw [hbeq, Bool.and_true] at hil
      exact Bool.not_eq_true _ ▸ (by simpa using hil)
    -- the satisfies version equals the latest version
    have hms : (buildMapFromVersionList rawVersions
        requestedVersion).maxSatisfyingVersion = some lv := by
      have : s.version = (buildMapFromVersionList rawVersions
          requestedVersion).maxSatisfyingVersion := by rw [hs]
      rw [← this, heq, hlv]
    rcases maxSat_characterize hms with ⟨⟨sv, hsv⟩, _⟩ | ⟨hrnone, hlvr⟩
    · -- lv is a parsed version, so it satisfies itself: contradiction
      have : buildSatisfiesLatest (buildMapFromVersionList rawVersions
          requestedVersion) lv = true := by
        unfold buildSatisfiesLatest
        rw [hms]
        exact semverSatisfies_self hsv
      rw [this] at hsl
      exact absurd hsl (by simp)
    · -- the requested range is invalid but equals a pluck survivor
      have hmem := buildLatest_mem h1
      have hvalid := pluck_mem_validRange hmem
      unfold semverValidRange at hvalid
      rw [hlvr, hrnone] at hvalid
      exact absurd hvalid (by simp)

theorem latest_eq_satisfies_stripped_ne_witness :
    buildTagsFromVersionMap (buildMapFromVersionList ["2.0.0"] ">=2.0.0")
        ">=2.0.0" =
      some [⟨"satisfies", some "2.0.0", false, false, false, true, false, false,
              false, true⟩,
            ⟨"latest", some "2.0.0", false, false, false, false, false, false,
              false, false⟩] ∧
      ¬(replaceFirstCaretTilde ">=2.0.0" = "2.0.0") :=
  ⟨by decide,
    latest_eq_satisfies_stripped_ne ["2.0.0"] ">=2.0.0" _
      ⟨"satisfies", some "2.0.0", false, false, false, true, false, false,
        false, true⟩
      ⟨"latest", some "2.0.0", false, false, false, false, false, false,
        false, false⟩
      [] (by decide) rfl (by decide) (by decide) "2.0.0" (by decide)⟩
